import Mathlib

/-!
Verification of the hexaimage core transform (src/hexaimage.js).

The core of the repository is the resampling transform implemented by
`convertToHexagonal` (dimension derivation and the buffer-writing loop,
lines 193-248) and `calculateHexagonalPixel` (coordinate mapping and the
weighted 3-by-3 sampler, lines 250-299).  The surrounding canvas / UI code
is presentation plumbing and is out of scope.

The JavaScript number arithmetic is embedded over `ℚ`: every constant that
appears in the source (0.85, 0.9, 0.5, 0.5/8) is an exact rational, the
per-pixel weight sums are dyadic and hence exact in IEEE doubles as well,
and for the dimension formulas the double results agree with the exact
rational results on all realistic sizes.  `Math.floor` becomes `Int.floor`
and `Math.round` becomes `fun q => ⌊q + 1/2⌋` (JavaScript rounds halves
toward positive infinity).  A pixel buffer is a `List ℕ` of bytes read with
`List.getD _ 0`, and the output buffer is modelled both as a function
`ℕ → ℚ` built by folding the writer over the pixel list (to reason about
write order) and as the row-major `List ℚ` the sequential loop produces.
-/

namespace HexaImage

/-- JavaScript `Math.floor` on the rational embedding of a JS number. -/
def jsFloor (q : ℚ) : ℤ := ⌊q⌋

/-- JavaScript `Math.round`: rounds to the nearest integer, halves toward
positive infinity, i.e. `⌊q + 1/2⌋`. -/
def jsRound (q : ℚ) : ℤ := ⌊q + 1/2⌋

/-- Round half away from zero, the rounding mode named by the spec. -/
def roundHalfAwayFromZero (q : ℚ) : ℤ :=
  if 0 ≤ q then ⌊q + 1/2⌋ else -⌊-q + 1/2⌋

/-- `hexWidth = Math.floor(originalWidth * 0.85)` (line 209). -/
def hexWidth (W : ℕ) : ℕ := (jsFloor ((W : ℚ) * (85/100))).toNat

/-- `hexHeight = Math.floor(originalHeight * 0.9)` (line 210). -/
def hexHeight (H : ℕ) : ℕ := (jsFloor ((H : ℚ) * (9/10))).toNat

/-- `scaleX = originalWidth / hexWidth` (line 252). -/
def scaleX (W Wh : ℕ) : ℚ := (W : ℚ) / (Wh : ℚ)

/-- `scaleY = originalHeight / hexHeight` (line 253). -/
def scaleY (H Hh : ℕ) : ℚ := (H : ℚ) / (Hh : ℚ)

/-- `hexOffset = (hexY % 2) * 0.5` (line 256). -/
def hexOffset (hexY : ℕ) : ℚ := ((hexY % 2 : ℕ) : ℚ) * (1/2)

/-- The horizontal sampling center before rounding,
`(hexX + hexOffset) * scaleX` (inside line 257). -/
def preCenterX (W Wh hexX hexY : ℕ) : ℚ :=
  ((hexX : ℚ) + hexOffset hexY) * scaleX W Wh

/-- `centerX = Math.round((hexX + hexOffset) * scaleX)` (line 257). -/
def centerX (W Wh hexX hexY : ℕ) : ℤ := jsRound (preCenterX W Wh hexX hexY)

/-- `centerY = Math.round(hexY * scaleY)` (line 258). -/
def centerY (H Hh hexY : ℕ) : ℤ := jsRound ((hexY : ℚ) * scaleY H Hh)

/-- `Math.max(0, Math.min(limit - 1, c + d))` — the clamp applied to a
sample coordinate (lines 270-271). -/
def sampleCoord (limit : ℕ) (c d : ℤ) : ℤ :=
  max 0 (min ((limit : ℤ) - 1) (c + d))

/-- `pixelIndex = (sampleY * originalWidth + sampleX) * 4` (line 273). -/
def tapIndex (W : ℕ) (sX sY : ℤ) : ℕ := ((sY * (W : ℤ) + sX) * 4).toNat

/-- The nine `(dy, dx)` offsets of the 3-by-3 window in the iteration
order of the nested loops (lines 268-269). -/
def offsets : List (ℤ × ℤ) :=
  [(-1,-1), (-1,0), (-1,1), (0,-1), (0,0), (0,1), (1,-1), (1,0), (1,1)]

/-- `weight = (dx === 0 && dy === 0) ? centerWeight : outerWeight` with
`centerWeight = 0.5` and `outerWeight = 0.5 / 8` (lines 261-262, 278). -/
def tapWeight (dy dx : ℤ) : ℚ := if dx = 0 ∧ dy = 0 then 1/2 else 1/2/8

/-- Accumulator state of the sampling loop: `totalR`, `totalG`, `totalB`,
`totalWeight` (lines 264-265). -/
structure Acc where
  tr : ℚ
  tg : ℚ
  tb : ℚ
  tw : ℚ
deriving DecidableEq

/-- One iteration of the 3-by-3 sampling loop body (lines 270-283):
clamp the tap coordinate, read R, G, B, and accumulate weighted sums. -/
def sampleTap (pixels : List ℕ) (W H : ℕ) (cX cY : ℤ) (d : ℤ × ℤ)
    (a : Acc) : Acc :=
  let sX := sampleCoord W cX d.2
  let sY := sampleCoord H cY d.1
  let idx := tapIndex W sX sY
  let r : ℚ := (pixels.getD idx 0 : ℕ)
  let g : ℚ := (pixels.getD (idx + 1) 0 : ℕ)
  let b : ℚ := (pixels.getD (idx + 2) 0 : ℕ)
  let w := tapWeight d.1 d.2
  ⟨a.tr + r * w, a.tg + g * w, a.tb + b * w, a.tw + w⟩

/-- An output color triple as returned by `calculateHexagonalPixel`. -/
structure RGB where
  r : ℚ
  g : ℚ
  b : ℚ
deriving DecidableEq

/-- `Math.max(lo, Math.min(hi, v))` on JS numbers (lines 295-297). -/
def clampQ (lo hi v : ℚ) : ℚ := max lo (min hi v)

/-- `calculateHexagonalPixel` (lines 250-299): map the output coordinate
to a source-space center, fold the 3-by-3 weighted sampling loop, then
normalize, round and clamp each channel. -/
def calculateHexagonalPixel (pixels : List ℕ) (W H hexX hexY Wh Hh : ℕ) :
    RGB :=
  let cX := centerX W Wh hexX hexY
  let cY := centerY H Hh hexY
  let a := offsets.foldl (fun acc d => sampleTap pixels W H cX cY d acc)
    ⟨0, 0, 0, 0⟩
  let tR : ℚ := if 0 < a.tw then ((jsRound (a.tr / a.tw) : ℤ) : ℚ) else a.tr
  let tG : ℚ := if 0 < a.tw then ((jsRound (a.tg / a.tw) : ℤ) : ℚ) else a.tg
  let tB : ℚ := if 0 < a.tw then ((jsRound (a.tb / a.tw) : ℤ) : ℚ) else a.tb
  ⟨clampQ 0 255 tR, clampQ 0 255 tG, clampQ 0 255 tB⟩

/-- The row-major traversal order of the output pixels: `hexY` outer,
`hexX` inner (lines 217-218), as a list of `(hexX, hexY)` pairs. -/
def rowMajor (Wh Hh : ℕ) : List (ℕ × ℕ) :=
  (List.range Hh).flatMap (fun y => (List.range Wh).map (fun x => (x, y)))

/-- `hexIndex = (hexY * hexWidth + hexX) * 4` (line 221). -/
def pixelBase (Wh : ℕ) (p : ℕ × ℕ) : ℕ := (p.2 * Wh + p.1) * 4

/-- One write of the inner loop body (lines 219-225): store R, G, B and a
forced alpha of 255 at the pixel's base index, modelled as an update of
the buffer viewed as a function from byte index to value. -/
def writePixel (pixels : List ℕ) (W H Wh Hh : ℕ) (p : ℕ × ℕ)
    (buf : ℕ → ℚ) : ℕ → ℚ :=
  fun i =>
    let c := calculateHexagonalPixel pixels W H p.1 p.2 Wh Hh
    let base := pixelBase Wh p
    if i = base then c.r
    else if i = base + 1 then c.g
    else if i = base + 2 then c.b
    else if i = base + 3 then 255
    else buf i

/-- Perform the writes of the conversion loop for the given list of output
pixels, in list order. -/
def writeAll (pixels : List ℕ) (W H Wh Hh : ℕ) (order : List (ℕ × ℕ))
    (buf : ℕ → ℚ) : ℕ → ℚ :=
  order.foldl (fun b p => writePixel pixels W H Wh Hh p b) buf

/-- `convertToHexagonal` (lines 193-248), restricted to its numeric core:
the output buffer produced by running the write loop in row-major order
over a zero-initialized buffer (`createImageData` zero-fills). -/
def convertToHexagonal (pixels : List ℕ) (W H : ℕ) : ℕ → ℚ :=
  writeAll pixels W H (hexWidth W) (hexHeight H)
    (rowMajor (hexWidth W) (hexHeight H)) (fun _ => 0)

/-- The four bytes the writer stores for one output pixel:
R, G, B and the forced alpha 255 (lines 222-225). -/
def pixelBytes (pixels : List ℕ) (W H Wh Hh : ℕ) (p : ℕ × ℕ) : List ℚ :=
  let c := calculateHexagonalPixel pixels W H p.1 p.2 Wh Hh
  [c.r, c.g, c.b, 255]

/-- The output buffer as the row-major byte list the sequential loop
produces. -/
def convertList (pixels : List ℕ) (W H : ℕ) : List ℚ :=
  (rowMajor (hexWidth W) (hexHeight H)).flatMap
    (pixelBytes pixels W H (hexWidth W) (hexHeight H))

/-- Number of `calculateHexagonalPixel` invocations the conversion loop
performs: one per traversed output pixel. -/
def samplerCalls (W H : ℕ) : ℕ := (rowMajor (hexWidth W) (hexHeight H)).length

/-- The byte the transform assigns to output buffer index `i`, as a pure
function of `i` and the source alone: decode `i` into its pixel coordinate
and channel, and take the corresponding written byte. -/
def targetByte (pixels : List ℕ) (W H Wh Hh : ℕ) (i : ℕ) : ℚ :=
  (pixelBytes pixels W H Wh Hh ((i / 4) % Wh, (i / 4) / Wh)).getD (i % 4) 0

/-- Index `i` of the output buffer lies in the four-byte block that the
write for output pixel `p` stores. -/
def covers (Wh : ℕ) (p : ℕ × ℕ) (i : ℕ) : Prop :=
  pixelBase Wh p ≤ i ∧ i < pixelBase Wh p + 4

/-- A source buffer in which all `n` pixels carry the same RGBA value. -/
def constImage (n r g b a : ℕ) : List ℕ :=
  match n with
  | 0 => []
  | n + 1 => r :: g :: b :: a :: constImage n r g b a

/-- The weighted channel contribution of one tap: weight times the
red byte read at the clamped tap position. -/
def tapValueR (pixels : List ℕ) (W H : ℕ) (cX cY : ℤ) (d : ℤ × ℤ) : ℚ :=
  tapWeight d.1 d.2 *
    (pixels.getD (tapIndex W (sampleCoord W cX d.2) (sampleCoord H cY d.1)) 0 : ℕ)

/-- Weight times the green byte read at the clamped tap position. -/
def tapValueG (pixels : List ℕ) (W H : ℕ) (cX cY : ℤ) (d : ℤ × ℤ) : ℚ :=
  tapWeight d.1 d.2 *
    (pixels.getD (tapIndex W (sampleCoord W cX d.2) (sampleCoord H cY d.1) + 1) 0 : ℕ)

/-- Weight times the blue byte read at the clamped tap position. -/
def tapValueB (pixels : List ℕ) (W H : ℕ) (cX cY : ℤ) (d : ℤ × ℤ) : ℚ :=
  tapWeight d.1 d.2 *
    (pixels.getD (tapIndex W (sampleCoord W cX d.2) (sampleCoord H cY d.1) + 2) 0 : ℕ)

/-- The sum, over the nine taps, of weight times red channel. -/
def weightedSumR (pixels : List ℕ) (W H : ℕ) (cX cY : ℤ) : ℚ :=
  (offsets.map (tapValueR pixels W H cX cY)).sum

/-- The sum, over the nine taps, of weight times green channel. -/
def weightedSumG (pixels : List ℕ) (W H : ℕ) (cX cY : ℤ) : ℚ :=
  (offsets.map (tapValueG pixels W H cX cY)).sum

/-- The sum, over the nine taps, of weight times blue channel. -/
def weightedSumB (pixels : List ℕ) (W H : ℕ) (cX cY : ℤ) : ℚ :=
  (offsets.map (tapValueB pixels W H cX cY)).sum

/-- The accumulated total weight: the sum of the nine tap weights. -/
def totalWeightSum : ℚ := (offsets.map (fun d => tapWeight d.1 d.2)).sum

end HexaImage

namespace HexaImage

/-! ## Arithmetic facts about the dimension formulas -/

theorem hexWidth_eq_div (W : ℕ) : hexWidth W = 17 * W / 20 := by
  have h1 : (W : ℚ) * (85/100) = ((17 * W : ℕ) : ℚ) / ((20 : ℕ) : ℚ) := by
    push_cast; ring
  rw [hexWidth, jsFloor, h1, Int.floor_toNat, Nat.floor_div_nat, Nat.floor_natCast]

theorem hexHeight_eq_div (H : ℕ) : hexHeight H = 9 * H / 10 := by
  have h1 : (H : ℚ) * (9/10) = ((9 * H : ℕ) : ℚ) / ((10 : ℕ) : ℚ) := by
    push_cast; ring
  rw [hexHeight, jsFloor, h1, Int.floor_toNat, Nat.floor_div_nat, Nat.floor_natCast]

/-! ## Facts about the clamp and the tap index -/

theorem sampleCoord_bounds (limit : ℕ) (c d : ℤ) (h : 1 ≤ limit) :
    0 ≤ sampleCoord limit c d ∧ sampleCoord limit c d ≤ (limit : ℤ) - 1 := by
  unfold sampleCoord
  have : (1 : ℤ) ≤ (limit : ℤ) := by exact_mod_cast h
  omega

theorem tapIndex_mod4 (W H : ℕ) (cX cY dx dy : ℤ) :
    tapIndex W (sampleCoord W cX dx) (sampleCoord H cY dy) % 4 = 0 := by
  have hx0 : 0 ≤ sampleCoord W cX dx := le_max_left _ _
  have hy0 : 0 ≤ sampleCoord H cY dy := le_max_left _ _
  have hz : 0 ≤ sampleCoord H cY dy * (W : ℤ) + sampleCoord W cX dx := by
    have := mul_nonneg hy0 (Int.ofNat_nonneg W)
    omega
  rw [tapIndex]
  set z := sampleCoord H cY dy * (W : ℤ) + sampleCoord W cX dx with hzdef
  omega

theorem tapIndex_bound (W H : ℕ) (cX cY dx dy : ℤ) (hW : 1 ≤ W) (hH : 1 ≤ H) :
    tapIndex W (sampleCoord W cX dx) (sampleCoord H cY dy) + 2 < W * H * 4 := by
  obtain ⟨hx0, hx1⟩ := sampleCoord_bounds W cX dx hW
  obtain ⟨hy0, hy1⟩ := sampleCoord_bounds H cY dy hH
  have hz : sampleCoord H cY dy * (W : ℤ) + sampleCoord W cX dx ≤
      (W : ℤ) * (H : ℤ) - 1 := by
    have h2 : sampleCoord H cY dy * (W : ℤ) ≤ ((H : ℤ) - 1) * (W : ℤ) :=
      mul_le_mul_of_nonneg_right hy1 (by exact_mod_cast Nat.zero_le W)
    nlinarith
  have hz0 : 0 ≤ sampleCoord H cY dy * (W : ℤ) + sampleCoord W cX dx := by
    have := mul_nonneg hy0 (Int.ofNat_nonneg W)
    omega
  have hcast : (W : ℤ) * (H : ℤ) = ((W * H : ℕ) : ℤ) := by push_cast; ring
  rw [hcast] at hz
  rw [tapIndex]
  set z := sampleCoord H cY dy * (W : ℤ) + sampleCoord W cX dx with hzdef
  set k := W * H with hkdef
  omega

/-! ## The sampling fold computed as explicit weighted sums -/

theorem foldl_sampleTap (pixels : List ℕ) (W H : ℕ) (cX cY : ℤ) :
    offsets.foldl (fun acc d => sampleTap pixels W H cX cY d acc) ⟨0, 0, 0, 0⟩ =
      ⟨weightedSumR pixels W H cX cY, weightedSumG pixels W H cX cY,
       weightedSumB pixels W H cX cY, 1⟩ := by
  simp only [offsets, List.foldl, sampleTap, weightedSumR, weightedSumG,
    weightedSumB, tapValueR, tapValueG, tapValueB, List.map, List.sum_cons,
    List.sum_nil, Acc.mk.injEq]
  norm_num [tapWeight]
  refine ⟨by ring, by ring, by ring⟩

theorem totalWeightSum_eq_one : totalWeightSum = 1 := by
  norm_num [totalWeightSum, offsets, tapWeight]

theorem jsRound_natCast (n : ℕ) : jsRound (n : ℚ) = n := by
  rw [jsRound]
  apply Int.floor_eq_iff.2
  constructor
  · push_cast; linarith
  · push_cast; linarith

theorem clampQ_byte (n : ℕ) (h : n ≤ 255) : clampQ 0 255 (n : ℚ) = n := by
  rw [clampQ, min_eq_right (by exact_mod_cast h), max_eq_right (by positivity)]

/-! ## The buffer writer: pointwise characterization of the write loop -/

theorem decode_of_covers {Wh : ℕ} {p : ℕ × ℕ} {i : ℕ}
    (hx : p.1 < Wh) (hc : covers Wh p i) :
    (i / 4) % Wh = p.1 ∧ (i / 4) / Wh = p.2 ∧ i % 4 = i - pixelBase Wh p := by
  obtain ⟨hlo, hhi⟩ := hc
  unfold pixelBase at hlo hhi ⊢
  have hq : i / 4 = p.2 * Wh + p.1 := by omega
  have hWh : 0 < Wh := by omega
  rw [hq]
  refine ⟨?_, ?_, by omega⟩
  · rw [Nat.add_comm, Nat.mul_comm, Nat.add_mul_mod_self_left,
      Nat.mod_eq_of_lt hx]
  · rw [Nat.add_comm, Nat.mul_comm p.2 Wh, Nat.add_mul_div_left _ _ hWh,
      Nat.div_eq_of_lt hx, Nat.zero_add]

theorem writePixel_of_covers (pixels : List ℕ) (W H Wh Hh : ℕ) (p : ℕ × ℕ)
    (buf : ℕ → ℚ) (i : ℕ) (hx : p.1 < Wh) (hc : covers Wh p i) :
    writePixel pixels W H Wh Hh p buf i = targetByte pixels W H Wh Hh i := by
  obtain ⟨h1, h2, h3⟩ := decode_of_covers hx hc
  obtain ⟨hlo, hhi⟩ := hc
  have hbase4 : pixelBase Wh p % 4 = 0 := by unfold pixelBase; omega
  simp only [writePixel, targetByte, pixelBytes, h1, h2]
  have hcase : i = pixelBase Wh p ∨ i = pixelBase Wh p + 1 ∨
      i = pixelBase Wh p + 2 ∨ i = pixelBase Wh p + 3 := by omega
  rcases hcase with h | h | h | h <;> subst h
  · rw [if_pos rfl, show pixelBase Wh p % 4 = 0 from by omega]
    rfl
  · rw [if_neg (by omega), if_pos rfl,
      show (pixelBase Wh p + 1) % 4 = 1 from by omega]
    rfl
  · rw [if_neg (by omega), if_neg (by omega), if_pos rfl,
      show (pixelBase Wh p + 2) % 4 = 2 from by omega]
    rfl
  · rw [if_neg (by omega), if_neg (by omega), if_neg (by omega), if_pos rfl,
      show (pixelBase Wh p + 3) % 4 = 3 from by omega]
    rfl

theorem writePixel_of_not_covers (pixels : List ℕ) (W H Wh Hh : ℕ)
    (p : ℕ × ℕ) (buf : ℕ → ℚ) (i : ℕ) (hc : ¬ covers Wh p i) :
    writePixel pixels W H Wh Hh p buf i = buf i := by
  unfold covers at hc
  rw [writePixel]
  rw [if_neg (by omega), if_neg (by omega), if_neg (by omega), if_neg (by omega)]

theorem writeAll_of_not_covers (pixels : List ℕ) (W H Wh Hh : ℕ)
    (l : List (ℕ × ℕ)) (buf : ℕ → ℚ) (i : ℕ)
    (hl : ∀ p ∈ l, ¬ covers Wh p i) :
    writeAll pixels W H Wh Hh l buf i = buf i := by
  induction l generalizing buf with
  | nil => rfl
  | cons p t ih =>
    rw [writeAll, List.foldl_cons]
    rw [show List.foldl (fun b q => writePixel pixels W H Wh Hh q b)
        (writePixel pixels W H Wh Hh p buf) t =
        writeAll pixels W H Wh Hh t (writePixel pixels W H Wh Hh p buf) from rfl]
    rw [ih _ (fun q hq => hl q (List.mem_cons_of_mem _ hq))]
    exact writePixel_of_not_covers _ _ _ _ _ _ _ _ (hl p (List.mem_cons_self _ _))

theorem writeAll_of_covers (pixels : List ℕ) (W H Wh Hh : ℕ)
    (l : List (ℕ × ℕ)) (buf : ℕ → ℚ) (i : ℕ)
    (hl : ∀ p ∈ l, p.1 < Wh) (hex : ∃ q ∈ l, covers Wh q i) :
    writeAll pixels W H Wh Hh l buf i = targetByte pixels W H Wh Hh i := by
  induction l generalizing buf with
  | nil =>
    obtain ⟨q, hq, _⟩ := hex
    exact absurd hq (List.not_mem_nil _)
  | cons p t ih =>
    rw [writeAll, List.foldl_cons]
    rw [show List.foldl (fun b r => writePixel pixels W H Wh Hh r b)
        (writePixel pixels W H Wh Hh p buf) t =
        writeAll pixels W H Wh Hh t (writePixel pixels W H Wh Hh p buf) from rfl]
    by_cases hex2 : ∃ q ∈ t, covers Wh q i
    · exact ih _ (fun r hr => hl r (List.mem_cons_of_mem _ hr)) hex2
    · push_neg at hex2
      rw [writeAll_of_not_covers _ _ _ _ _ _ _ _ hex2]
      obtain ⟨q, hq, hc⟩ := hex
      have hp : q = p := by
        rcases List.mem_cons.1 hq with h | h
        · exact h
        · exact absurd hc (hex2 q h)
      subst hp
      exact writePixel_of_covers _ _ _ _ _ _ _ _
        (hl q (List.mem_cons_self _ _)) hc

theorem mem_rowMajor {Wh Hh x y : ℕ} :
    (x, y) ∈ rowMajor Wh Hh ↔ x < Wh ∧ y < Hh := by
  simp only [rowMajor, List.mem_flatMap, List.mem_map, List.mem_range,
    Prod.mk.injEq]
  constructor
  · rintro ⟨a, ha, b, hb, hbx, hay⟩
    exact ⟨hbx ▸ hb, hay ▸ ha⟩
  · rintro ⟨hx, hy⟩
    exact ⟨y, hy, x, hx, rfl, rfl⟩

theorem not_covers_of_ge {Wh Hh : ℕ} {p : ℕ × ℕ} {i : ℕ}
    (hx : p.1 < Wh) (hy : p.2 < Hh) (hi : Wh * Hh * 4 ≤ i) :
    ¬ covers Wh p i := by
  rintro ⟨hlo, hhi⟩
  unfold pixelBase at hhi
  have hlt : p.2 * Wh + p.1 < Wh * Hh := by
    calc p.2 * Wh + p.1 < p.2 * Wh + Wh := by omega
    _ = (p.2 + 1) * Wh := by ring
    _ ≤ Hh * Wh := Nat.mul_le_mul_right _ (by omega)
    _ = Wh * Hh := Nat.mul_comm _ _
  omega

theorem convert_char (pixels : List ℕ) (W H : ℕ) (i : ℕ) :
    convertToHexagonal pixels W H i =
      if i < hexWidth W * hexHeight H * 4
      then targetByte pixels W H (hexWidth W) (hexHeight H) i
      else 0 := by
  set Wh := hexWidth W with hWhdef
  set Hh := hexHeight H with hHhdef
  show writeAll pixels W H Wh Hh (rowMajor Wh Hh) (fun _ => 0) i = _
  by_cases hi : i < Wh * Hh * 4
  · rw [if_pos hi]
    have hWh : 0 < Wh := by
      rcases Nat.eq_zero_or_pos Wh with h | h
      · rw [h] at hi; simp at hi
      · exact h
    have hq : i / 4 < Wh * Hh := by
      set k := Wh * Hh with hkdef
      omega
    have hx : (i / 4) % Wh < Wh := Nat.mod_lt _ hWh
    have hy : (i / 4) / Wh < Hh :=
      (Nat.div_lt_iff_lt_mul hWh).2 (by rw [Nat.mul_comm]; exact hq)
    have hdm : (i / 4) / Wh * Wh + (i / 4) % Wh = i / 4 := by
      rw [Nat.mul_comm]; exact Nat.div_add_mod _ _
    have hc : covers Wh ((i / 4) % Wh, (i / 4) / Wh) i := by
      unfold covers pixelBase
      simp only
      rw [hdm]
      omega
    exact writeAll_of_covers pixels W H Wh Hh (rowMajor Wh Hh) _ i
      (fun r hr => by
        obtain ⟨a, b⟩ := r
        exact (mem_rowMajor.1 hr).1)
      ⟨_, mem_rowMajor.2 ⟨hx, hy⟩, hc⟩
  · rw [if_neg hi]
    exact writeAll_of_not_covers pixels W H Wh Hh (rowMajor Wh Hh) _ i
      (fun p hp => by
        obtain ⟨a, b⟩ := p
        obtain ⟨ha, hb⟩ := mem_rowMajor.1 hp
        exact not_covers_of_ge ha hb (Nat.le_of_not_lt hi))

/-! ## Constant images -/

theorem constImage_getD (n r g b a i : ℕ) (hi : i < 4 * n) :
    (constImage n r g b a).getD i 0 = [r, g, b, a].getD (i % 4) 0 := by
  induction n generalizing i with
  | zero => omega
  | succ n ih =>
    rcases i with _ | _ | _ | _ | j
    · rfl
    · rfl
    · rfl
    · rfl
    · rw [constImage]
      rw [show (r :: g :: b :: a :: constImage n r g b a).getD (j + 4) 0 =
          (constImage n r g b a).getD j 0 from rfl]
      rw [ih j (by omega), show (j + 4) % 4 = j % 4 from by omega]

theorem calculateHexagonalPixel_const (W H r g b a hexX hexY Wh Hh : ℕ)
    (hW : 1 ≤ W) (hH : 1 ≤ H) (hr : r ≤ 255) (hg : g ≤ 255) (hb : b ≤ 255) :
    calculateHexagonalPixel (constImage (W * H) r g b a) W H hexX hexY Wh Hh =
      ⟨(r : ℚ), (g : ℚ), (b : ℚ)⟩ := by
  set cX := centerX W Wh hexX hexY with hcX
  set cY := centerY H Hh hexY with hcY
  have hread : ∀ dx dy : ℤ, ∀ c : ℕ, c < 3 →
      (constImage (W * H) r g b a).getD
        (tapIndex W (sampleCoord W cX dx) (sampleCoord H cY dy) + c) 0 =
        [r, g, b, a].getD c 0 := by
    intro dx dy c hc
    have hb2 := tapIndex_bound W H cX cY dx dy hW hH
    have hm := tapIndex_mod4 W H cX cY dx dy
    rw [constImage_getD _ _ _ _ _ _ (by omega)]
    rw [show (tapIndex W (sampleCoord W cX dx) (sampleCoord H cY dy) + c) % 4 = c
      from by omega]
  have htapR : ∀ d : ℤ × ℤ, tapValueR (constImage (W * H) r g b a) W H cX cY d =
      tapWeight d.1 d.2 * (r : ℚ) := by
    intro d
    rw [tapValueR, show tapIndex W (sampleCoord W cX d.2) (sampleCoord H cY d.1) =
      tapIndex W (sampleCoord W cX d.2) (sampleCoord H cY d.1) + 0 from by omega,
      hread d.2 d.1 0 (by omega)]
    rfl
  have htapG : ∀ d : ℤ × ℤ, tapValueG (constImage (W * H) r g b a) W H cX cY d =
      tapWeight d.1 d.2 * (g : ℚ) := by
    intro d
    rw [tapValueG, hread d.2 d.1 1 (by omega)]
    rfl
  have htapB : ∀ d : ℤ × ℤ, tapValueB (constImage (W * H) r g b a) W H cX cY d =
      tapWeight d.1 d.2 * (b : ℚ) := by
    intro d
    rw [tapValueB, hread d.2 d.1 2 (by omega)]
    rfl
  have hsum : ∀ v : ℕ,
      (offsets.map (fun d : ℤ × ℤ => tapWeight d.1 d.2 * (v : ℚ))).sum = v := by
    intro v
    norm_num [offsets, tapWeight]
    ring
  have hR : weightedSumR (constImage (W * H) r g b a) W H cX cY = r := by
    rw [weightedSumR, List.map_congr_left (fun d _ => htapR d), hsum]
  have hG : weightedSumG (constImage (W * H) r g b a) W H cX cY = g := by
    rw [weightedSumG, List.map_congr_left (fun d _ => htapG d), hsum]
  have hB : weightedSumB (constImage (W * H) r g b a) W H cX cY = b := by
    rw [weightedSumB, List.map_congr_left (fun d _ => htapB d), hsum]
  rw [calculateHexagonalPixel, foldl_sampleTap]
  simp only [hR, hG, hB]
  norm_num [jsRound_natCast, clampQ_byte, hr, hg, hb]

theorem rowMajor_eq_nil {Wh Hh : ℕ} (h : Wh = 0 ∨ Hh = 0) :
    rowMajor Wh Hh = [] := by
  rcases h with h | h <;> subst h <;> simp [rowMajor]

end HexaImage

namespace HexaImage

/-! ## The claims -/

/-- C1: for every input width `W ≥ 1` and height `H ≥ 1`, the dimension
calculation returns exactly `(Wh, Hh) = (floor(W*0.85), floor(H*0.9))`:
the code's `Math.floor(W * 0.85)` and `Math.floor(H * 0.9)` equal the exact
integer quotients `17*W/20` and `9*H/10`, as a pure function of the two
integers. -/
theorem dimension_calculation_exact (W H : ℕ) (hW : 1 ≤ W) (hH : 1 ≤ H) :
    ((hexWidth W : ℤ) = ⌊(W : ℚ) * (85/100)⌋ ∧ hexWidth W = 17 * W / 20) ∧
    ((hexHeight H : ℤ) = ⌊(H : ℚ) * (9/10)⌋ ∧ hexHeight H = 9 * H / 10) := by
  refine ⟨⟨?_, hexWidth_eq_div W⟩, ⟨?_, hexHeight_eq_div H⟩⟩
  · rw [hexWidth, jsFloor, Int.toNat_of_nonneg]
    exact Int.floor_nonneg.2 (by positivity)
  · rw [hexHeight, jsFloor, Int.toNat_of_nonneg]
    exact Int.floor_nonneg.2 (by positivity)

/-- Witness for C1 at the concrete input `W = H = 10`. -/
theorem dimension_calculation_exact_witness :
    ((1 : ℕ) ≤ 10 ∧ (1 : ℕ) ≤ 10) ∧
    hexWidth 10 = 17 * 10 / 20 ∧ hexHeight 10 = 9 * 10 / 10 :=
  ⟨⟨by decide, by decide⟩,
   (dimension_calculation_exact 10 10 (by decide) (by decide)).1.2,
   (dimension_calculation_exact 10 10 (by decide) (by decide)).2.2⟩

/-- C2: the coordinate mapper computes
`centerX = round((hexX + (hexY mod 2)*0.5) * (W/Wh))` and
`centerY = round(hexY * (H/Hh))` where `round` agrees with
round-half-away-from-zero on these (nonnegative) inputs; changing only the
parity of `hexY` for the same `hexX` shifts the pre-rounding horizontal
center by exactly `0.5 * scaleX`, and the stagger never enters `centerY`. -/
theorem stagger_mapping (W H Wh Hh hexX hexY y0 y1 : ℕ) :
    centerX W Wh hexX hexY = roundHalfAwayFromZero (preCenterX W Wh hexX hexY) ∧
    centerY H Hh hexY = roundHalfAwayFromZero ((hexY : ℚ) * scaleY H Hh) ∧
    (y0 % 2 = 0 → y1 % 2 = 1 →
      preCenterX W Wh hexX y1 - preCenterX W Wh hexX y0 =
        (1/2) * scaleX W Wh) := by
  refine ⟨?_, ?_, ?_⟩
  · have h0 : (0 : ℚ) ≤ preCenterX W Wh hexX hexY := by
      unfold preCenterX hexOffset scaleX
      positivity
    rw [centerX, jsRound, roundHalfAwayFromZero, if_pos h0]
  · have h0 : (0 : ℚ) ≤ (hexY : ℚ) * scaleY H Hh := by
      unfold scaleY; positivity
    rw [centerY, jsRound, roundHalfAwayFromZero, if_pos h0]
  · intro h0 h1
    unfold preCenterX hexOffset
    rw [h0, h1]
    push_cast
    ring

/-- Witness for C2 at `W = 10`, `Wh = 8`, `hexX = 3` and the parity pair
`y0 = 2`, `y1 = 3`. -/
theorem stagger_mapping_witness :
    ((2 : ℕ) % 2 = 0 ∧ (3 : ℕ) % 2 = 1) ∧
    centerX 10 8 3 2 = roundHalfAwayFromZero (preCenterX 10 8 3 2) ∧
    preCenterX 10 8 3 3 - preCenterX 10 8 3 2 = (1/2) * scaleX 10 8 :=
  ⟨⟨rfl, rfl⟩, (stagger_mapping 10 10 8 9 3 2 2 3).1,
   (stagger_mapping 10 10 8 9 3 2 2 3).2.2 rfl rfl⟩

/-- C3: the sampler's output for each of R, G, B equals
`clamp(round((Σ weight * channel) / totalWeight), 0, 255)` over the nine
clamped taps, the center tap has weight `0.5` and each of the eight others
`0.0625`, the accumulated total weight is exactly `1`, and rounding is
applied once per channel after normalization. -/
theorem sampler_weighted_average (pixels : List ℕ) (W H hexX hexY Wh Hh : ℕ) :
    totalWeightSum = 1 ∧
    tapWeight 0 0 = 1/2 ∧
    (∀ d : ℤ × ℤ, d ∈ offsets → d ≠ (0, 0) → tapWeight d.1 d.2 = 0.0625) ∧
    calculateHexagonalPixel pixels W H hexX hexY Wh Hh =
      ⟨clampQ 0 255 ((jsRound (weightedSumR pixels W H (centerX W Wh hexX hexY)
          (centerY H Hh hexY) / totalWeightSum) : ℤ) : ℚ),
       clampQ 0 255 ((jsRound (weightedSumG pixels W H (centerX W Wh hexX hexY)
          (centerY H Hh hexY) / totalWeightSum) : ℤ) : ℚ),
       clampQ 0 255 ((jsRound (weightedSumB pixels W H (centerX W Wh hexX hexY)
          (centerY H Hh hexY) / totalWeightSum) : ℤ) : ℚ)⟩ := by
  refine ⟨totalWeightSum_eq_one, by norm_num [tapWeight], ?_, ?_⟩
  · intro d hd hne
    fin_cases hd <;> simp_all [tapWeight] <;> norm_num
  · rw [calculateHexagonalPixel, foldl_sampleTap, totalWeightSum_eq_one]
    norm_num

/-- Witness for C3: the characterization instantiated at a concrete pixel of
a concrete image. -/
theorem sampler_weighted_average_witness :
    totalWeightSum = 1 ∧
    calculateHexagonalPixel [9, 8, 7, 6] 1 1 0 0 1 1 =
      ⟨clampQ 0 255 ((jsRound (weightedSumR [9, 8, 7, 6] 1 1 (centerX 1 1 0 0)
          (centerY 1 1 0) / totalWeightSum) : ℤ) : ℚ),
       clampQ 0 255 ((jsRound (weightedSumG [9, 8, 7, 6] 1 1 (centerX 1 1 0 0)
          (centerY 1 1 0) / totalWeightSum) : ℤ) : ℚ),
       clampQ 0 255 ((jsRound (weightedSumB [9, 8, 7, 6] 1 1 (centerX 1 1 0 0)
          (centerY 1 1 0) / totalWeightSum) : ℤ) : ℚ)⟩ :=
  ⟨(sampler_weighted_average [9, 8, 7, 6] 1 1 0 0 1 1).1,
   (sampler_weighted_average [9, 8, 7, 6] 1 1 0 0 1 1).2.2.2⟩

/-- C4: every tap coordinate is clamped into `[0, W-1] × [0, H-1]`, the three
bytes read for a tap lie strictly inside `[0, W*H*4)`, coordinates below the
range clamp to `0`, coordinates above it clamp to the top edge, and in-range
coordinates pass through unchanged (clamp-to-edge, never wraparound, never
skipped). -/
theorem clamped_taps_in_bounds (W H : ℕ) (cX cY dx dy : ℤ)
    (hW : 1 ≤ W) (hH : 1 ≤ H) :
    0 ≤ sampleCoord W cX dx ∧ sampleCoord W cX dx ≤ (W : ℤ) - 1 ∧
    0 ≤ sampleCoord H cY dy ∧ sampleCoord H cY dy ≤ (H : ℤ) - 1 ∧
    tapIndex W (sampleCoord W cX dx) (sampleCoord H cY dy) + 2 < W * H * 4 ∧
    (cX + dx < 0 → sampleCoord W cX dx = 0) ∧
    ((W : ℤ) - 1 < cX + dx → sampleCoord W cX dx = (W : ℤ) - 1) ∧
    (0 ≤ cX + dx → cX + dx ≤ (W : ℤ) - 1 → sampleCoord W cX dx = cX + dx) := by
  obtain ⟨hx0, hx1⟩ := sampleCoord_bounds W cX dx hW
  obtain ⟨hy0, hy1⟩ := sampleCoord_bounds H cY dy hH
  have hW1 : (1 : ℤ) ≤ (W : ℤ) := by exact_mod_cast hW
  have hH1 : (1 : ℤ) ≤ (H : ℤ) := by exact_mod_cast hH
  refine ⟨hx0, hx1, hy0, hy1, tapIndex_bound W H cX cY dx dy hW hH, ?_, ?_, ?_⟩
  · intro h; unfold sampleCoord; omega
  · intro h; unfold sampleCoord; omega
  · intro h1 h2; unfold sampleCoord; omega

/-- Witness for C4 at `W = H = 3` with a center beyond the right edge and
above the top edge. -/
theorem clamped_taps_in_bounds_witness :
    ((1 : ℕ) ≤ 3 ∧ (1 : ℕ) ≤ 3) ∧
    0 ≤ sampleCoord 3 5 1 ∧ sampleCoord 3 5 1 ≤ (3 : ℤ) - 1 ∧
    0 ≤ sampleCoord 3 (-2) (-1) ∧ sampleCoord 3 (-2) (-1) ≤ (3 : ℤ) - 1 ∧
    tapIndex 3 (sampleCoord 3 5 1) (sampleCoord 3 (-2) (-1)) + 2 < 3 * 3 * 4 ∧
    ((5 : ℤ) + 1 < 0 → sampleCoord 3 5 1 = 0) ∧
    ((3 : ℤ) - 1 < (5 : ℤ) + 1 → sampleCoord 3 5 1 = (3 : ℤ) - 1) ∧
    (0 ≤ (5 : ℤ) + 1 → (5 : ℤ) + 1 ≤ (3 : ℤ) - 1 →
      sampleCoord 3 5 1 = (5 : ℤ) + 1) := by
  have h := clamped_taps_in_bounds 3 3 5 (-2) 1 (-1) (by decide) (by decide)
  exact ⟨⟨by decide, by decide⟩, h.1, h.2.1, h.2.2.1, h.2.2.2.1, h.2.2.2.2.1,
    h.2.2.2.2.2.1, h.2.2.2.2.2.2.1, h.2.2.2.2.2.2.2⟩

/-- C5: a source all of whose pixels carry the same color `(r, g, b)` with
byte channels is mapped to an output buffer all of whose pixels are exactly
`(r, g, b, 255)`. -/
theorem uniform_color_invariance (W H r g b a : ℕ) (hW : 1 ≤ W) (hH : 1 ≤ H)
    (hr : r ≤ 255) (hg : g ≤ 255) (hb : b ≤ 255) :
    ∀ i < hexWidth W * hexHeight H * 4,
      convertToHexagonal (constImage (W * H) r g b a) W H i =
        if i % 4 = 0 then (r : ℚ) else if i % 4 = 1 then (g : ℚ)
        else if i % 4 = 2 then (b : ℚ) else 255 := by
  intro i hi
  rw [convert_char, if_pos hi, targetByte]
  simp only [pixelBytes,
    calculateHexagonalPixel_const W H r g b a _ _ _ _ hW hH hr hg hb]
  have h4 : i % 4 = 0 ∨ i % 4 = 1 ∨ i % 4 = 2 ∨ i % 4 = 3 := by omega
  rcases h4 with h | h | h | h <;> rw [h] <;> rfl

/-- Witness for C5: the 10-by-10 solid red source yields an 8-by-9 target
whose first byte is the red value 255. -/
theorem uniform_color_invariance_witness :
    ((1 : ℕ) ≤ 10 ∧ (255 : ℕ) ≤ 255 ∧ (0 : ℕ) ≤ 255 ∧
      (0 : ℕ) < hexWidth 10 * hexHeight 10 * 4) ∧
    hexWidth 10 = 8 ∧ hexHeight 10 = 9 ∧
    convertToHexagonal (constImage (10 * 10) 255 0 0 255) 10 10 0 = 255 := by
  refine ⟨⟨by decide, by decide, by decide,
    by rw [hexWidth_eq_div, hexHeight_eq_div]; decide⟩,
    by rw [hexWidth_eq_div], by rw [hexHeight_eq_div], ?_⟩
  have h := uniform_color_invariance 10 10 255 0 0 255 (by decide) (by decide)
    (by decide) (by decide) (by decide) 0
    (by rw [hexWidth_eq_div, hexHeight_eq_div]; decide)
  simpa using h

/-- C6: the alpha byte of every pixel of the output buffer is exactly 255,
for every source image. -/
theorem alpha_always_opaque (pixels : List ℕ) (W H i : ℕ)
    (hi : i < hexWidth W * hexHeight H * 4) (h4 : i % 4 = 3) :
    convertToHexagonal pixels W H i = 255 := by
  rw [convert_char, if_pos hi, targetByte, h4]
  rfl

/-- Witness for C6 at the single alpha byte of the 1-by-1 output of a
2-by-2 input. -/
theorem alpha_always_opaque_witness :
    ((3 : ℕ) < hexWidth 2 * hexHeight 2 * 4 ∧ 3 % 4 = 3) ∧
    convertToHexagonal [] 2 2 3 = 255 :=
  ⟨⟨by rw [hexWidth_eq_div, hexHeight_eq_div]; decide, by decide⟩,
   alpha_always_opaque [] 2 2 3
     (by rw [hexWidth_eq_div, hexHeight_eq_div]; decide) (by decide)⟩

/-- C7: each output byte is a pure function of its own index and the source
(the row-major loop realizes the pointwise `targetByte` map), and running
the writes in any permutation of the row-major order — in particular any
parallel-by-row schedule — produces the identical output buffer. -/
theorem transform_order_independent (pixels : List ℕ) (W H : ℕ)
    (order : List (ℕ × ℕ))
    (hperm : order.Perm (rowMajor (hexWidth W) (hexHeight H))) :
    writeAll pixels W H (hexWidth W) (hexHeight H) order (fun _ => 0) =
      convertToHexagonal pixels W H ∧
    (∀ i, convertToHexagonal pixels W H i =
      if i < hexWidth W * hexHeight H * 4
      then targetByte pixels W H (hexWidth W) (hexHeight H) i
      else 0) := by
  constructor
  · funext i
    have hmem : ∀ p : ℕ × ℕ,
        p ∈ order ↔ p ∈ rowMajor (hexWidth W) (hexHeight H) :=
      fun p => hperm.mem_iff
    have hl : ∀ p ∈ order, p.1 < hexWidth W := by
      intro p hp
      obtain ⟨a, b⟩ := p
      exact (mem_rowMajor.1 ((hmem _).1 hp)).1
    by_cases hi : i < hexWidth W * hexHeight H * 4
    · rw [convert_char, if_pos hi]
      have hWh : 0 < hexWidth W := by
        rcases Nat.eq_zero_or_pos (hexWidth W) with h | h
        · rw [h] at hi; simp at hi
        · exact h
      have hq : i / 4 < hexWidth W * hexHeight H := by
        set k := hexWidth W * hexHeight H with hkdef
        omega
      have hx : (i / 4) % hexWidth W < hexWidth W := Nat.mod_lt _ hWh
      have hy : (i / 4) / hexWidth W < hexHeight H :=
        (Nat.div_lt_iff_lt_mul hWh).2 (by rw [Nat.mul_comm]; exact hq)
      have hdm : (i / 4) / hexWidth W * hexWidth W + (i / 4) % hexWidth W
          = i / 4 := by
        rw [Nat.mul_comm]; exact Nat.div_add_mod _ _
      have hc : covers (hexWidth W)
          ((i / 4) % hexWidth W, (i / 4) / hexWidth W) i := by
        unfold covers pixelBase
        simp only
        rw [hdm]
        omega
      exact writeAll_of_covers pixels W H _ _ order _ i hl
        ⟨_, (hmem _).2 (mem_rowMajor.2 ⟨hx, hy⟩), hc⟩
    · rw [convert_char, if_neg hi]
      exact writeAll_of_not_covers pixels W H _ _ order _ i
        (fun p hp => by
          obtain ⟨a, b⟩ := p
          obtain ⟨ha, hb⟩ := mem_rowMajor.1 ((hmem _).1 hp)
          exact not_covers_of_ge ha hb (Nat.le_of_not_lt hi))
  · exact convert_char pixels W H

/-- Witness for C7: writing the four output pixels of a 3-by-3 input in
reversed order produces the same buffer as the row-major loop. -/
theorem transform_order_independent_witness :
    [((1 : ℕ), (1 : ℕ)), (0, 1), (1, 0), (0, 0)].Perm
      (rowMajor (hexWidth 3) (hexHeight 3)) ∧
    writeAll [] 3 3 (hexWidth 3) (hexHeight 3)
      [((1 : ℕ), (1 : ℕ)), (0, 1), (1, 0), (0, 0)] (fun _ => 0) =
      convertToHexagonal [] 3 3 :=
  ⟨by rw [hexWidth_eq_div, hexHeight_eq_div]; decide,
   (transform_order_independent [] 3 3 _
     (by rw [hexWidth_eq_div, hexHeight_eq_div]; decide)).1⟩

/-- C8 counterexample: on the invalid input `W = 0` (a `W ≤ 0` case the claim
says must fail fast with a structured InvalidInput error), the code instead
completes normally, performs zero sampler invocations, and returns an empty
output buffer — the implementation has no validation and no error channel at
all. -/
theorem invalid_input_unchecked_counterexample :
    convertList [] 0 5 = [] ∧ samplerCalls 0 5 = 0 := by
  have h : hexWidth 0 = 0 := by rw [hexWidth_eq_div]
  constructor
  · rw [convertList, rowMajor_eq_nil (Or.inl h)]; rfl
  · rw [samplerCalls, rowMajor_eq_nil (Or.inl h)]; rfl

/-- C8 amended: the core performs no input validation and raises no
structured error: for `W = 0` or `H = 0` it completes normally with zero
sampler invocations and the empty output buffer. -/
theorem no_input_validation (pixels : List ℕ) (W H : ℕ) (h : W = 0 ∨ H = 0) :
    convertList pixels W H = [] ∧ samplerCalls W H = 0 := by
  have hdeg : hexWidth W = 0 ∨ hexHeight H = 0 := by
    rcases h with h | h <;> subst h
    · left; rw [hexWidth_eq_div]
    · right; rw [hexHeight_eq_div]
  have hnil := rowMajor_eq_nil hdeg
  constructor
  · rw [convertList, hnil]; rfl
  · rw [samplerCalls, hnil]; rfl

/-- Witness for the amended C8 at `H = 0` with a nonempty buffer. -/
theorem no_input_validation_witness :
    ((7 : ℕ) = 0 ∨ (0 : ℕ) = 0) ∧
    convertList [1, 2] 7 0 = [] ∧ samplerCalls 7 0 = 0 := by
  have h := no_input_validation [1, 2] 7 0 (Or.inr rfl)
  exact ⟨Or.inr rfl, h.1, h.2⟩

/-- C9: for `W, H ≥ 1` with `floor(W*0.85) = 0` or `floor(H*0.9) = 0` the
transform does not guard the degenerate case: the loop performs zero sampler
invocations and the produced target buffer has length `Wh*Hh*4 = 0`. -/
theorem degenerate_dims_silent (pixels : List ℕ) (W H : ℕ)
    (hW : 1 ≤ W) (hH : 1 ≤ H)
    (hdeg : hexWidth W = 0 ∨ hexHeight H = 0) :
    convertList pixels W H = [] ∧ samplerCalls W H = 0 ∧
    (convertList pixels W H).length = hexWidth W * hexHeight H * 4 := by
  have hnil := rowMajor_eq_nil hdeg
  refine ⟨?_, ?_, ?_⟩
  · rw [convertList, hnil]; rfl
  · rw [samplerCalls, hnil]; rfl
  · rw [convertList, hnil]
    rcases hdeg with h | h <;> rw [h] <;> simp

/-- Witness for C9 at `W = 1`, `H = 5`, where `hexWidth 1 = 0`. -/
theorem degenerate_dims_silent_witness :
    ((1 : ℕ) ≤ 1 ∧ (1 : ℕ) ≤ 5 ∧ hexWidth 1 = 0) ∧
    convertList [] 1 5 = [] ∧ samplerCalls 1 5 = 0 := by
  have hdeg : hexWidth 1 = 0 := by rw [hexWidth_eq_div]
  have h := degenerate_dims_silent [] 1 5 (by decide) (by decide) (Or.inl hdeg)
  exact ⟨⟨by decide, by decide, hdeg⟩, h.1, h.2.1⟩

/-- C10: the output is independent of the source alpha channel: two source
buffers that agree on every byte whose index is not `3 mod 4` produce
byte-identical output buffers. -/
theorem alpha_noninterference (pixels1 pixels2 : List ℕ) (W H : ℕ)
    (h : ∀ i, i % 4 ≠ 3 → pixels1.getD i 0 = pixels2.getD i 0) :
    convertToHexagonal pixels1 W H = convertToHexagonal pixels2 W H := by
  have hcalc : ∀ hexX hexY Wh Hh : ℕ,
      calculateHexagonalPixel pixels1 W H hexX hexY Wh Hh =
      calculateHexagonalPixel pixels2 W H hexX hexY Wh Hh := by
    intro hexX hexY Wh Hh
    set cX := centerX W Wh hexX hexY with hcX
    set cY := centerY H Hh hexY with hcY
    have hmod : ∀ dx dy : ℤ, ∀ c : ℕ, c < 3 →
        (tapIndex W (sampleCoord W cX dx) (sampleCoord H cY dy) + c) % 4
          ≠ 3 := by
      intro dx dy c hc
      have hm := tapIndex_mod4 W H cX cY dx dy
      omega
    have hR : weightedSumR pixels1 W H cX cY =
        weightedSumR pixels2 W H cX cY := by
      rw [weightedSumR, weightedSumR]
      refine congrArg List.sum (List.map_congr_left ?_)
      intro d _
      rw [tapValueR, tapValueR,
        h _ (by simpa using hmod d.2 d.1 0 (by omega))]
    have hG : weightedSumG pixels1 W H cX cY =
        weightedSumG pixels2 W H cX cY := by
      rw [weightedSumG, weightedSumG]
      refine congrArg List.sum (List.map_congr_left ?_)
      intro d _
      rw [tapValueG, tapValueG, h _ (hmod d.2 d.1 1 (by omega))]
    have hB : weightedSumB pixels1 W H cX cY =
        weightedSumB pixels2 W H cX cY := by
      rw [weightedSumB, weightedSumB]
      refine congrArg List.sum (List.map_congr_left ?_)
      intro d _
      rw [tapValueB, tapValueB, h _ (hmod d.2 d.1 2 (by omega))]
    rw [calculateHexagonalPixel, calculateHexagonalPixel, foldl_sampleTap,
      foldl_sampleTap, hR, hG, hB]
  funext i
  rw [convert_char, convert_char]
  by_cases hi : i < hexWidth W * hexHeight H * 4
  · rw [if_pos hi, if_pos hi, targetByte, targetByte, pixelBytes, pixelBytes,
      hcalc]
  · rw [if_neg hi, if_neg hi]

/-- Witness for C10: two 2-by-2 sources with equal RGB bytes and four
different alpha bytes convert to the same buffer. -/
theorem alpha_noninterference_witness :
    (∀ i, i % 4 ≠ 3 →
      List.getD [10, 20, 30, 255, 40, 50, 60, 0, 70, 80, 90, 128,
        100, 110, 120, 7] i 0 =
      List.getD [10, 20, 30, 0, 40, 50, 60, 255, 70, 80, 90, 1,
        100, 110, 120, 200] i 0) ∧
    convertToHexagonal [10, 20, 30, 255, 40, 50, 60, 0, 70, 80, 90, 128,
        100, 110, 120, 7] 2 2 =
      convertToHexagonal [10, 20, 30, 0, 40, 50, 60, 255, 70, 80, 90, 1,
        100, 110, 120, 200] 2 2 := by
  have hb : ∀ i < 16, i % 4 ≠ 3 →
      List.getD [10, 20, 30, 255, 40, 50, 60, 0, 70, 80, 90, 128,
        100, 110, 120, 7] i 0 =
      List.getD [10, 20, 30, 0, 40, 50, 60, 255, 70, 80, 90, 1,
        100, 110, 120, 200] i 0 := by decide
  have h : ∀ i, i % 4 ≠ 3 →
      List.getD [10, 20, 30, 255, 40, 50, 60, 0, 70, 80, 90, 128,
        100, 110, 120, 7] i 0 =
      List.getD [10, 20, 30, 0, 40, 50, 60, 255, 70, 80, 90, 1,
        100, 110, 120, 200] i 0 := by
    intro i hi
    by_cases hlt : i < 16
    · exact hb i hlt hi
    · rw [List.getD_eq_default _ _ (by simp; omega),
        List.getD_eq_default _ _ (by simp; omega)]
  exact ⟨h, alpha_noninterference _ _ 2 2 h⟩

end HexaImage
